import Mathlib

/-
Verification of the martian proxy engine specification against a shallow
embedding of the Go sources.

Embedded components:
* src/fifo/fifo_group.go     — FIFO modifier groups, error aggregation, ToImmutable
* src/proxy.go               — isCloseable, handleLoop, the close decision in handle,
                               Proxy.roundTrip
* src/unnamed/part_000       — connmetric.InstrumentedConn (Read/Write/Close)

Go messages (http.Request / http.Response) are mutated in place; the embedding
threads the message value explicitly.  Go errors are modelled by an abstract
error type; where the error's structure matters (MultiError containers) an
explicit tree type is used.
-/

namespace Martian

/-! ## FIFO group, flat view (src/fifo/fifo_group.go, group.ModifyRequest /
group.ModifyResponse).  A modifier is a function from the message to the
updated message and an optional error. -/

/-- A request or response modifier (martian.RequestModifier /
martian.ResponseModifier): mutates the message (threaded explicitly) and
returns an optional error. -/
abbrev FifoMod (Msg η : Type) : Type := Msg → Msg × Option η

/-- Error returned by a fifo group run: with aggregateErrors = false the
modifier's own error is returned unchanged (`single`); with
aggregateErrors = true the group returns the MultiError container (`multi`).
The MultiError container itself (martian.MultiError, not under src/) is
modelled from the spec: an aggregated error is a container of the collected
errors in insertion order, empty container meaning success. -/
inductive FifoErr (η : Type) where
  | single (e : η)
  | multi (errs : List η)
deriving DecidableEq

/-- Loop body of group.ModifyRequest / group.ModifyResponse
(src/fifo/fifo_group.go lines 43-64 and 70-91): run the modifiers in order;
on error either stop and return it (aggregateErrors = false) or add it to the
pending MultiError `merr` (`none` models the nil *MultiError) and continue.
At the end, return nil if `merr` is nil or empty, otherwise `merr`.
In addition to the Go results (final message and returned error) the
embedding records, as a ghost trace, the index of every modifier that was
invoked, in invocation order, starting at `idx`. -/
def fifoRun {Msg η : Type} (agg : Bool) (mods : List (FifoMod Msg η))
    (msg : Msg) (idx : Nat) (merr : Option (List η)) :
    Msg × List Nat × Option (FifoErr η) :=
  match mods with
  | [] =>
    match merr with
    | none => (msg, [], none)
    | some l => (msg, [], if l.isEmpty then none else some (.multi l))
  | f :: rest =>
    match f msg with
    | (m, none) =>
      let r := fifoRun agg rest m (idx + 1) merr
      (r.1, idx :: r.2.1, r.2.2)
    | (m, some e) =>
      if agg then
        let r := fifoRun agg rest m (idx + 1) (some ((merr.getD []) ++ [e]))
        (r.1, idx :: r.2.1, r.2.2)
      else
        (m, [idx], some (.single e))

/-- fifo.Group, flat view: ordered request-side and response-side modifier
lists and the aggregateErrors flag. -/
structure FifoGroup (Msg η : Type) where
  reqmods : List (FifoMod Msg η)
  resmods : List (FifoMod Msg η)
  aggregateErrors : Bool

/-- Group.ModifyRequest: run the request modifiers first-in first-out. -/
def FifoGroup.modifyRequest {Msg η : Type} (g : FifoGroup Msg η) (msg : Msg) :
    Msg × List Nat × Option (FifoErr η) :=
  fifoRun g.aggregateErrors g.reqmods msg 0 none

/-- Group.ModifyResponse: run the response modifiers first-in first-out. -/
def FifoGroup.modifyResponse {Msg η : Type} (g : FifoGroup Msg η) (msg : Msg) :
    Msg × List Nat × Option (FifoErr η) :=
  fifoRun g.aggregateErrors g.resmods msg 0 none

/-- Message obtained after the first `k` modifiers ran in order on `msg`
(specification-side description of the threaded message state). -/
def thrMsg {Msg η : Type} (mods : List (FifoMod Msg η)) (msg : Msg) (k : Nat) : Msg :=
  (mods.take k).foldl (fun m f => (f m).1) msg

/-- Error returned by the modifier at index `k` when the modifiers run in
order starting from `msg` (none when `k` is out of range). -/
def thrErr {Msg η : Type} (mods : List (FifoMod Msg η)) (msg : Msg) (k : Nat) : Option η :=
  match mods[k]? with
  | some f => (f (thrMsg mods msg k)).2
  | none => none

/-- Concrete group used to witness claim C1: three modifiers, the second and
third return errors, aggregation disabled. -/
def c1mods : List (FifoMod Nat Nat) :=
  [fun m => (m + 1, none), fun m => (m + 10, some 7), fun m => (m + 100, some 9)]

/-- Witness group for claim C1 (aggregateErrors = false). -/
def G1 : FifoGroup Nat Nat := ⟨c1mods, c1mods, false⟩

/-- Concrete group used to witness claim C2: three modifiers, the first and
third return errors, aggregation enabled. -/
def c2mods : List (FifoMod Nat Nat) :=
  [fun m => (m + 1, some 3), fun m => (m * 2, none), fun m => (m + 5, some 8)]

/-- Witness group for claim C2 (aggregateErrors = true). -/
def G2 : FifoGroup Nat Nat := ⟨c2mods, c2mods, true⟩

/-- Join the pending MultiError with further collected errors: `none` models
the nil *MultiError, which is allocated on the first Add. -/
def joinAcc {α : Type} (acc : Option (List α)) (es : List α) : Option (List α) :=
  match acc, es with
  | none, [] => none
  | none, es => some es
  | some a, es => some (a ++ es)

/-! ## FIFO group, nested view (fifo.Group with nested Groups as entries,
Group.ToImmutable, ImmutableGroup; src/fifo/fifo_group.go lines 287-337). -/

/-- A Go error value returned through a fifo group: either an opaque modifier
error or a *MultiError container holding the errors added to it, in order.
martian.MultiError itself is not under src/ and is modelled from the spec:
an aggregated error is a container of zero or more errors that behaves as
success when empty and otherwise renders its members joined in order. -/
inductive GoErr (η : Type) where
  | base (e : η)
  | multi (errs : List (GoErr η))

mutual
/-- Observable leaf errors of a Go error value, in rendering order (a
MultiError renders its members joined in order). -/
def GoErr.flatten {η : Type} : GoErr η → List η
  | .base e => [e]
  | .multi es => flattenL es
/-- Observable leaf errors of a list of Go error values, concatenated. -/
def flattenL {η : Type} : List (GoErr η) → List η
  | [] => []
  | e :: rest => e.flatten ++ flattenL rest
end

/-- An entry of a mutable fifo.Group: either an opaque modifier or a nested
mutable fifo.Group (its aggregateErrors flag, request-side entries and
response-side entries). -/
inductive Entry (Msg η : Type) where
  | prim (f : Msg → Msg × Option η)
  | group (agg : Bool) (reqmods : List (Entry Msg η)) (resmods : List (Entry Msg η))

/-- An entry of an ImmutableGroup: an opaque modifier or a nested
ImmutableGroup. -/
inductive IEntry (Msg η : Type) where
  | prim (f : Msg → Msg × Option η)
  | igroup (agg : Bool) (reqmods : List (IEntry Msg η)) (resmods : List (IEntry Msg η))

/-- Choose the request-side (`true`) or response-side (`false`) component. -/
def pick {α : Type} (side : Bool) (a b : α) : α := cond side a b

/-- Final step of the group loop: return nil if the MultiError is nil or
empty, otherwise return the container. -/
def mfinish {η : Type} (merr : Option (List (GoErr η))) : Option (GoErr η) :=
  match merr with
  | none => none
  | some l => if l.isEmpty then none else some (.multi l)

mutual
/-- Run one entry of a mutable group on the given side: an opaque modifier
runs directly (its error is an opaque base error); a nested group runs its
own side-`side` entry list under its own aggregateErrors flag, exactly as
group.ModifyRequest / group.ModifyResponse do. -/
def entryRun {Msg η : Type} (side : Bool) : Entry Msg η → Msg → Msg × Option (GoErr η)
  | .prim f, msg => ((f msg).1, (f msg).2.map .base)
  | .group agg reqs ress, msg => listRun side agg (pick side reqs ress) msg none
termination_by e m => sizeOf e
decreasing_by
all_goals simp_wf
all_goals cases side <;> simp [pick] <;> omega
/-- The loop of group.ModifyRequest / group.ModifyResponse
(src/fifo/fifo_group.go lines 43-64, 70-91) over nested entries: run the
entries in order; on an entry error, stop and return it when
aggregateErrors = false, otherwise add it to the pending MultiError and
continue; finally return nil if the MultiError is nil or empty, else the
MultiError. -/
def listRun {Msg η : Type} (side : Bool) (agg : Bool) :
    List (Entry Msg η) → Msg → Option (List (GoErr η)) → Msg × Option (GoErr η)
  | [], msg, merr => (msg, mfinish merr)
  | e :: rest, msg, merr =>
    match entryRun side e msg with
    | (m, none) => listRun side agg rest m merr
    | (m, some er) =>
      if agg then listRun side agg rest m (some (merr.getD [] ++ [er]))
      else (m, some er)
termination_by l m merr => sizeOf l
decreasing_by
all_goals simp_wf
all_goals omega
end

mutual
/-- Run one entry of an ImmutableGroup on the given side (same semantics as
for mutable groups; ImmutableGroup embeds the same `group` loop). -/
def ientryRun {Msg η : Type} (side : Bool) : IEntry Msg η → Msg → Msg × Option (GoErr η)
  | .prim f, msg => ((f msg).1, (f msg).2.map .base)
  | .igroup agg reqs ress, msg => ilistRun side agg (pick side reqs ress) msg none
termination_by e m => sizeOf e
decreasing_by
all_goals simp_wf
all_goals cases side <;> simp [pick] <;> omega
/-- The group loop over ImmutableGroup entries. -/
def ilistRun {Msg η : Type} (side : Bool) (agg : Bool) :
    List (IEntry Msg η) → Msg → Option (List (GoErr η)) → Msg × Option (GoErr η)
  | [], msg, merr => (msg, mfinish merr)
  | e :: rest, msg, merr =>
    match ientryRun side e msg with
    | (m, none) => ilistRun side agg rest m merr
    | (m, some er) =>
      if agg then ilistRun side agg rest m (some (merr.getD [] ++ [er]))
      else (m, some er)
termination_by l m merr => sizeOf l
decreasing_by
all_goals simp_wf
all_goals omega
end

/-- Side-`side` entry list of Group.ToImmutable (src/fifo/fifo_group.go lines
287-329): each opaque modifier is kept; for each entry that is itself a
mutable Group, the entry is converted with ToImmutable, and if its
aggregateErrors flag equals the parent's, its converted side-`side` entries
are inlined into the parent's sequence, otherwise the converted
ImmutableGroup is kept as a single nested entry. -/
def convList {Msg η : Type} (side : Bool) (agg : Bool) :
    List (Entry Msg η) → List (IEntry Msg η)
  | [] => []
  | .prim f :: rest => .prim f :: convList side agg rest
  | .group cagg creq cres :: rest =>
    if agg == cagg then
      convList side cagg (pick side creq cres) ++ convList side agg rest
    else
      .igroup cagg (convList true cagg creq) (convList false cagg cres)
        :: convList side agg rest
termination_by l => sizeOf l
decreasing_by
all_goals simp_wf
all_goals cases side <;> (try simp [pick]) <;> omega

/-- Threaded view of an aggregate-errors run: final message and the list of
errors returned by the entries, in insertion order. -/
def threadRun {Msg η : Type} (side : Bool) : List (Entry Msg η) → Msg → Msg × List (GoErr η)
  | [], msg => (msg, [])
  | e :: rest, msg =>
    ((threadRun side rest (entryRun side e msg).1).1,
     (entryRun side e msg).2.toList ++ (threadRun side rest (entryRun side e msg).1).2)

/-- Threaded view of an aggregate-errors run over ImmutableGroup entries. -/
def ithreadRun {Msg η : Type} (side : Bool) : List (IEntry Msg η) → Msg → Msg × List (GoErr η)
  | [], msg => (msg, [])
  | e :: rest, msg =>
    ((ithreadRun side rest (ientryRun side e msg).1).1,
     (ientryRun side e msg).2.toList ++ (ithreadRun side rest (ientryRun side e msg).1).2)

/-- A mutable fifo.Group with possibly nested Groups as entries. -/
structure MGroup (Msg η : Type) where
  aggregateErrors : Bool
  reqmods : List (Entry Msg η)
  resmods : List (Entry Msg η)

/-- fifo.ImmutableGroup. -/
structure IGroup (Msg η : Type) where
  aggregateErrors : Bool
  reqmods : List (IEntry Msg η)
  resmods : List (IEntry Msg η)

/-- Group.ToImmutable: convert both entry lists, inlining nested groups whose
aggregateErrors flag matches the parent's; the flag itself is preserved. -/
def MGroup.toImmutable {Msg η : Type} (g : MGroup Msg η) : IGroup Msg η :=
  { aggregateErrors := g.aggregateErrors
    reqmods := convList true g.aggregateErrors g.reqmods
    resmods := convList false g.aggregateErrors g.resmods }

/-- Group.ModifyRequest on the nested view. -/
def MGroup.modifyRequest {Msg η : Type} (g : MGroup Msg η) (msg : Msg) :
    Msg × Option (GoErr η) :=
  listRun true g.aggregateErrors g.reqmods msg none

/-- Group.ModifyResponse on the nested view. -/
def MGroup.modifyResponse {Msg η : Type} (g : MGroup Msg η) (msg : Msg) :
    Msg × Option (GoErr η) :=
  listRun false g.aggregateErrors g.resmods msg none

/-- ImmutableGroup.ModifyRequest. -/
def IGroup.modifyRequest {Msg η : Type} (g : IGroup Msg η) (msg : Msg) :
    Msg × Option (GoErr η) :=
  ilistRun true g.aggregateErrors g.reqmods msg none

/-- ImmutableGroup.ModifyResponse. -/
def IGroup.modifyResponse {Msg η : Type} (g : IGroup Msg η) (msg : Msg) :
    Msg × Option (GoErr η) :=
  ilistRun false g.aggregateErrors g.resmods msg none

/-- Observable equivalence of a group run result: same final message, and the
returned errors have the same observable content (success iff success, and on
error the same leaf errors in the same rendering order). -/
def obsEquiv {Msg η : Type} (x y : Msg × Option (GoErr η)) : Prop :=
  x.1 = y.1 ∧ x.2.map GoErr.flatten = y.2.map GoErr.flatten

/-- Equivalence statement for non-aggregating runs of a converted list. -/
def QF {Msg η : Type} (l : List (Entry Msg η)) : Prop :=
  ∀ (side : Bool) (msg : Msg),
    obsEquiv (ilistRun side false (convList side false l) msg none)
      (listRun side false l msg none)

/-- Equivalence statement for the threaded view of aggregating runs of a
converted list. -/
def QT {Msg η : Type} (l : List (Entry Msg η)) : Prop :=
  ∀ (side : Bool) (msg : Msg),
    (ithreadRun side (convList side true l) msg).1 = (threadRun side l msg).1 ∧
    flattenL (ithreadRun side (convList side true l) msg).2
      = flattenL (threadRun side l msg).2 ∧
    ((ithreadRun side (convList side true l) msg).2 = []
      ↔ (threadRun side l msg).2 = [])

/-! ## Handler loop (src/proxy.go lines 279-318, Proxy.handleLoop). -/

/-- Outcome of one p.handle call as observed by the handler loop: the
returned error (`none` for success) and the value of s.Hijacked() when the
loop checks it after the call. -/
structure HandleOutcome (η : Type) where
  err : Option η
  hijacked : Bool

/-- Reason the handler loop returned. -/
inductive LoopExit where
  | closingAtStart
  | closeable
  | tooManyErrors
  | hijacked
deriving DecidableEq

/-- Result of the handler loop on a script of handle outcomes: the exit
reason (`none` when the script is exhausted with the loop still running),
the number of p.handle calls performed, and whether the socket was closed.
`defer conn.Close()` at the top of handleLoop runs on every return path, so
the socket is closed exactly when the function returned. -/
structure LoopResult where
  exit : Option LoopExit
  handleCalls : Nat
  connClosed : Bool
deriving DecidableEq

/-- The for-loop of Proxy.handleLoop: call p.handle; on a closeable error
return; on a non-closeable error increment the consecutive-error counter and
return once it reaches maxConsecutiveErrors = 5; on success reset the
counter; in all continuing cases return if the session is hijacked,
otherwise loop. -/
def handleLoopGo {η : Type} (clsbl : η → Bool) :
    List (HandleOutcome η) → Nat → Nat → LoopResult
  | [], _, calls => ⟨none, calls, false⟩
  | o :: rest, errCount, calls =>
    match o.err with
    | some e =>
      if clsbl e then ⟨some .closeable, calls + 1, true⟩
      else if errCount + 1 ≥ 5 then ⟨some .tooManyErrors, calls + 1, true⟩
      else if o.hijacked then ⟨some .hijacked, calls + 1, true⟩
      else handleLoopGo clsbl rest (errCount + 1) (calls + 1)
    | none =>
      if o.hijacked then ⟨some .hijacked, calls + 1, true⟩
      else handleLoopGo clsbl rest 0 (calls + 1)

/-- Proxy.handleLoop: if the proxy is already closing, return before handling
anything (the deferred conn.Close() still runs); otherwise run the loop. -/
def handleLoop {η : Type} (closingAtStart : Bool) (clsbl : η → Bool)
    (script : List (HandleOutcome η)) : LoopResult :=
  if closingAtStart then ⟨some .closingAtStart, 0, true⟩
  else handleLoopGo clsbl script 0 0

/-- Claim C4 as stated: whenever the handler loop terminates because a
modifier hijacked the session, the underlying socket is not closed. -/
def c4AsStated : Prop :=
  ∀ (η : Type) (clsbl : η → Bool) (script : List (HandleOutcome η)),
    (handleLoop false clsbl script).exit = some LoopExit.hijacked →
    (handleLoop false clsbl script).connClosed = false

/-! ## connmetric.InstrumentedConn (src/unnamed/part_000, types from
src/connmetric/tracker.go). -/

/-- connmetric.StatsEntry. -/
structure StatsEntry (η : Type) where
  address : String
  duration : Nat
  bytesIn : Nat
  bytesOut : Nat
  error : Option η
deriving DecidableEq

/-- State of an InstrumentedConn: `errPtr` models the atomic.Pointer[error]
field `error` (`none` is the nil pointer; `some v` is a pointer to an error
variable holding `v`); `closeOnceDone` models the sync.Once latch (set even
when the guarded function panics, since sync.Once marks completion in a
defer); `innerCloseCalls` counts the closes forwarded to the inner net.Conn. -/
structure ICState (η : Type) where
  address : String
  bytesIn : Nat
  bytesOut : Nat
  errPtr : Option (Option η)
  closeOnceDone : Bool
  closeError : Option η
  innerCloseCalls : Nat
deriving DecidableEq

/-- NewInstrumentedConn: counters zero, error pointer nil, close not run. -/
def newInstrumentedConn {η : Type} (address : String) : ICState η :=
  ⟨address, 0, 0, none, false, none, 0⟩

/-- Fresh instrumented connection used in the bug-exhibiting theorems. -/
def icFresh : ICState String := newInstrumentedConn "10.0.0.1:443"

/-- InstrumentedConn.Read (src/unnamed/part_000 lines 37-45), given the inner
socket's result (n, err): when err is non-nil the code evaluates
`*ic.error.Load()`; dereferencing the loaded pointer panics when it is nil
(result `none`); otherwise, if the stored error is nil the new error is
stored; then n is added to bytesIn and the inner result is returned
unchanged. -/
def icRead {η : Type} (st : ICState η) (n : Nat) (e : Option η) :
    Option ((Nat × Option η) × ICState η) :=
  match e with
  | some _ =>
    match st.errPtr with
    | none => none
    | some stored =>
      let st1 := if stored.isNone then { st with errPtr := some e } else st
      some ((n, e), { st1 with bytesIn := st1.bytesIn + n })
  | none => some ((n, e), { st with bytesIn := st.bytesIn + n })

/-- InstrumentedConn.Write (src/unnamed/part_000 lines 47-55): same shape as
Read, accumulating bytesOut. -/
def icWrite {η : Type} (st : ICState η) (n : Nat) (e : Option η) :
    Option ((Nat × Option η) × ICState η) :=
  match e with
  | some _ =>
    match st.errPtr with
    | none => none
    | some stored =>
      let st1 := if stored.isNone then { st with errPtr := some e } else st
      some ((n, e), { st1 with bytesOut := st1.bytesOut + n })
  | none => some ((n, e), { st with bytesOut := st.bytesOut + n })

/-- InstrumentedConn.Close / close (src/unnamed/part_000 lines 57-73): Close
runs close through the sync.Once latch and returns closeError.  Inside
close, the duration is taken, the inner socket's Close is forwarded (result
`innerCloseResult`, stored in closeError), and the stats entry is built with
`Error: *ic.error.Load()` — dereferencing the loaded pointer panics when it
is nil, in which case nothing is emitted to the tracker.  The first
component is the value returned by Close (`none` when the call panics); the
last component is the stats entry emitted to the tracker, if any. -/
def icClose {η : Type} (st : ICState η) (innerCloseResult : Option η) (dur : Nat) :
    Option (Option η) × ICState η × Option (StatsEntry η) :=
  if st.closeOnceDone then (some st.closeError, st, none)
  else
    let st1 : ICState η :=
      { st with
          closeOnceDone := true
          closeError := innerCloseResult
          innerCloseCalls := st.innerCloseCalls + 1 }
    match st1.errPtr with
    | none => (none, st1, none)
    | some stored =>
      (some innerCloseResult, st1,
       some ⟨st1.address, dur, st1.bytesIn, st1.bytesOut, stored⟩)

/-- Fold a sequence of successful writes (the inner Write returning (n, nil)
for each n) over the instrumented state.  A successful write never panics;
the `none` arm is unreachable. -/
def runOkWrites {η : Type} (st : ICState η) : List Nat → ICState η
  | [] => st
  | n :: rest =>
    match icWrite st n none with
    | some (_, st1) => runOkWrites st1 rest
    | none => st

/-! ## isCloseable (src/proxy.go lines 46-61). -/

/-- Identity of a Go error value for the pointer-equality switch in
isCloseable: io.EOF, io.ErrClosedPipe, the internal errClose sentinel, or
any other error value. -/
inductive ErrIdent where
  | eof
  | errClosedPipe
  | errClose
  | other
deriving DecidableEq

/-- The aspects of a Go error value that isCloseable inspects: whether the
type assertion to net.Error succeeds and what Timeout() returns, the error's
identity for the switch, and its Error() message (as a character list). -/
structure NetErrValue where
  isNetError : Bool
  isTimeout : Bool
  ident : ErrIdent
  msg : List Char

/-- isCloseable: true for a net.Error whose Timeout() is true; then the
switch on err against io.EOF, io.ErrClosedPipe and errClose; then
strings.Contains(err.Error(), "tls:"); otherwise false. -/
def isCloseable (e : NetErrValue) : Bool :=
  if e.isNetError && e.isTimeout then true
  else
    match e.ident with
    | .eof => true
    | .errClosedPipe => true
    | .errClose => true
    | .other => if "tls:".toList <:+: e.msg then true else false

/-- The closeable classes named by the spec: a network timeout, EOF, a
broken/closed pipe (io.ErrClosedPipe), a TLS-layer failure (message contains
"tls:"), or the internal close sentinel. -/
def closeableSpec (e : NetErrValue) : Prop :=
  (e.isNetError = true ∧ e.isTimeout = true) ∨ e.ident = .eof
    ∨ e.ident = .errClosedPipe ∨ e.ident = .errClose
    ∨ "tls:".toList <:+: e.msg

/-! ## Close decision after response modifiers (src/proxy.go lines 702-707
and 784-787). -/

/-- The request fields the close decision consults: protocol version and the
Close flag (set by net/http for a Connection: close header or an HTTP/1.0
request without keep-alive). -/
structure ReqInfo where
  protoMajor : Nat
  protoMinor : Nat
  close : Bool
deriving DecidableEq

/-- http.Request.ProtoAtLeast. -/
def protoAtLeast (r : ReqInfo) (major minor : Nat) : Bool :=
  decide (major < r.protoMajor)
    || (decide (r.protoMajor = major) && decide (minor ≤ r.protoMinor))

/-- Tail of Proxy.handle for a non-CONNECT, non-101 exchange.  Lines 702-707
set res.Close = true and closing = errClose when the request is below
HTTP/1.1, or req.Close or res.Close is set, or the proxy is closing; an
io.ErrUnexpectedEOF or traffic-shape force-close error from the write, or a
force-close error from the flush, also sets closing; lines 784-787 set
closing when CloseAfterReply is set.  Returns the final res.Close flag and
whether the handler returns the errClose sentinel (terminating the
connection after the response is written). -/
def finishExchange (req : ReqInfo) (resClose0 proxyClosing closeAfterReply
    writeUnexpectedEOF writeForceClose flushForceClose : Bool) : Bool × Bool :=
  let needClose := !(protoAtLeast req 1 1) || req.close || resClose0 || proxyClosing
  let resClose := if needClose then true else resClose0
  let closing1 := needClose
  let closing2 := closing1 || writeUnexpectedEOF || writeForceClose
  let closing3 := closing2 || flushForceClose
  (resClose, closing3 || closeAfterReply)

/-- Claim C9 as stated: with write and flush succeeding, res.Close is set to
true and the engine prepares to terminate exactly when the request is not
HTTP/1.1, or Connection: close is set on either side, or the proxy is
shutting down, or CloseAfterReply is set. -/
def c9AsStated : Prop :=
  ∀ (req : ReqInfo) (resClose0 proxyClosing closeAfterReply : Bool),
    ((finishExchange req resClose0 proxyClosing closeAfterReply false false false).1 = true
      ∧ (finishExchange req resClose0 proxyClosing closeAfterReply false false false).2
          = true)
    ↔ (!(protoAtLeast req 1 1) || req.close || resClose0 || proxyClosing
        || closeAfterReply) = true

/-! ## Proxy.roundTrip (src/proxy.go lines 802-809). -/

/-- Per-request context flags consulted by the engine (spec §3, Context). -/
structure RequestContext where
  skipRoundTrip : Bool
  skipLogging : Bool
  apiRequest : Bool

/-- Modelled from the spec: proxyutil.NewResponse (not under src/) builds a
synthetic response carrying the given status code for the given request,
with an empty body. -/
structure SynthResponse (ρ : Type) where
  statusCode : Nat
  request : ρ
deriving DecidableEq

/-- Synthetic response constructor (proxyutil.NewResponse, modelled from the
spec as above). -/
def newResponse {ρ : Type} (status : Nat) (req : ρ) : SynthResponse ρ :=
  ⟨status, req⟩

/-- Proxy.roundTrip: when the per-request context says to skip the round
trip, return a synthetic 200 response and nil error without invoking the
RoundTripper; otherwise invoke the configured RoundTripper.  The Bool
records whether the RoundTripper was invoked. -/
def proxyRoundTrip {ρ η : Type} (ctx : RequestContext)
    (rt : ρ → Except η (SynthResponse ρ)) (req : ρ) :
    Except η (SynthResponse ρ) × Bool :=
  if ctx.skipRoundTrip then (Except.ok (newResponse 200 req), false)
  else (rt req, true)

/-! ## Lemmas about the threaded helpers -/

theorem thrMsg_zero {Msg η : Type} (mods : List (FifoMod Msg η)) (msg : Msg) :
    thrMsg mods msg 0 = msg := rfl

theorem thrMsg_cons_succ {Msg η : Type} (f : FifoMod Msg η)
    (rest : List (FifoMod Msg η)) (msg : Msg) (k : Nat) :
    thrMsg (f :: rest) msg (k + 1) = thrMsg rest (f msg).1 k := by
  simp [thrMsg, List.take_succ_cons]

theorem thrErr_cons_zero {Msg η : Type} (f : FifoMod Msg η)
    (rest : List (FifoMod Msg η)) (msg : Msg) :
    thrErr (f :: rest) msg 0 = (f msg).2 := by
  simp [thrErr, thrMsg]

theorem thrErr_cons_succ {Msg η : Type} (f : FifoMod Msg η)
    (rest : List (FifoMod Msg η)) (msg : Msg) (k : Nat) :
    thrErr (f :: rest) msg (k + 1) = thrErr rest (f msg).1 k := by
  simp [thrErr, thrMsg_cons_succ]

/-- With aggregation disabled, if the modifier at index `k` is the first to
error then the run executes exactly the modifiers 0..k and returns that
error unchanged. -/
theorem fifoRun_false_firstErr {Msg η : Type} :
    ∀ (mods : List (FifoMod Msg η)) (msg : Msg) (idx k : Nat) (e : η),
      thrErr mods msg k = some e →
      (∀ i, i < k → thrErr mods msg i = none) →
      fifoRun false mods msg idx none
        = (thrMsg mods msg (k + 1), List.range' idx (k + 1), some (FifoErr.single e)) := by
  intro mods
  induction mods with
  | nil =>
    intro msg idx k e he _
    simp [thrErr] at he
  | cons f rest ih =>
    intro msg idx k e he hfirst
    cases k with
    | zero =>
      rw [thrErr_cons_zero] at he
      rcases hfm : f msg with ⟨m, er⟩
      rw [hfm] at he
      simp at he
      subst he
      simp [fifoRun, hfm, thrMsg, List.range', hfm]
    | succ k =>
      have h0 : (f msg).2 = none := by
        have := hfirst 0 (Nat.succ_pos k)
        rwa [thrErr_cons_zero] at this
      rcases hfm : f msg with ⟨m, er⟩
      rw [hfm] at h0
      simp at h0
      subst h0
      have he2 : thrErr rest m k = some e := by
        rw [thrErr_cons_succ, hfm] at he
        exact he
      have hfirst2 : ∀ i, i < k → thrErr rest m i = none := by
        intro i hi
        have := hfirst (i + 1) (by omega)
        rw [thrErr_cons_succ, hfm] at this
        exact this
      have hr := ih m (idx + 1) k e he2 hfirst2
      simp [fifoRun, hfm, hr, thrMsg_cons_succ, List.range']

/-- With aggregation disabled, if no modifier errors then every modifier runs
in insertion order and the run returns success. -/
theorem fifoRun_false_noErr {Msg η : Type} :
    ∀ (mods : List (FifoMod Msg η)) (msg : Msg) (idx : Nat),
      (∀ i, thrErr mods msg i = none) →
      fifoRun false mods msg idx none
        = (thrMsg mods msg mods.length, List.range' idx mods.length, none) := by
  intro mods
  induction mods with
  | nil =>
    intro msg idx _
    simp [fifoRun, thrMsg, List.range']
  | cons f rest ih =>
    intro msg idx hnone
    have h0 : (f msg).2 = none := by
      have := hnone 0
      rwa [thrErr_cons_zero] at this
    rcases hfm : f msg with ⟨m, er⟩
    rw [hfm] at h0
    simp at h0
    subst h0
    have hrest : ∀ i, thrErr rest m i = none := by
      intro i
      have := hnone (i + 1)
      rw [thrErr_cons_succ, hfm] at this
      exact this
    have hr := ih m (idx + 1) hrest
    simp [fifoRun, hfm, hr, thrMsg_cons_succ, List.range']

/-- With aggregation enabled, every modifier runs in insertion order, and the
pending MultiError accumulates exactly the errors returned by the modifiers,
in insertion order. -/
theorem fifoRun_true_total {Msg η : Type} :
    ∀ (mods : List (FifoMod Msg η)) (msg : Msg) (idx : Nat) (merr : Option (List η)),
      fifoRun true mods msg idx merr
        = (thrMsg mods msg mods.length, List.range' idx mods.length,
           match joinAcc merr ((List.range mods.length).filterMap (thrErr mods msg)) with
           | none => none
           | some l => if l.isEmpty then none else some (FifoErr.multi l)) := by
  intro mods
  induction mods with
  | nil =>
    intro msg idx merr
    rcases merr with _ | l
    · simp [fifoRun, thrMsg, List.range', joinAcc]
    · cases l <;> simp [fifoRun, thrMsg, List.range', joinAcc]
  | cons f rest ih =>
    intro msg idx merr
    have hcollect : (List.range (f :: rest).length).filterMap (thrErr (f :: rest) msg)
        = (f msg).2.toList ++ (List.range rest.length).filterMap (thrErr rest (f msg).1) := by
      rw [List.length_cons, List.range_succ_eq_map]
      rw [List.filterMap_cons]
      rcases hfm2 : (f msg).2 with _ | e
      · simp only [thrErr_cons_zero, hfm2, List.filterMap_map]
        simp [Function.comp_def, thrErr_cons_succ]
      · simp only [thrErr_cons_zero, hfm2, List.filterMap_map]
        simp [Function.comp_def, thrErr_cons_succ]
    rcases hfm : f msg with ⟨m, er⟩
    rw [hfm] at hcollect
    rcases er with _ | e
    · have hc : (List.range (rest.length + 1)).filterMap (thrErr (f :: rest) msg)
          = (List.range rest.length).filterMap (thrErr rest m) := by
        simpa using hcollect
      simp [fifoRun, hfm, ih m (idx + 1) merr, thrMsg_cons_succ, List.range', hc]
    · have hc : (List.range (rest.length + 1)).filterMap (thrErr (f :: rest) msg)
          = e :: (List.range rest.length).filterMap (thrErr rest m) := by
        simpa using hcollect
      simp [fifoRun, hfm, ih m (idx + 1) (some (merr.getD [] ++ [e])), thrMsg_cons_succ,
        List.range', hc]
      rcases merr with _ | a <;> simp [joinAcc, List.append_assoc]

/-- Claim C1: for every modifier group with aggregate-errors = false and every
list of entries, if entry k is the first entry whose ModifyRequest
(resp. ModifyResponse) returns an error, then entries after k are not
executed and the group's ModifyRequest (resp. ModifyResponse) returns exactly
entry k's error; if no entry errors, every entry runs in insertion order and
the group returns success. -/
theorem claim_c1 {Msg η : Type} (g : FifoGroup Msg η)
    (hagg : g.aggregateErrors = false) :
    (∀ (msg : Msg) (k : Nat) (e : η),
        thrErr g.reqmods msg k = some e →
        (∀ i, i < k → thrErr g.reqmods msg i = none) →
        g.modifyRequest msg
          = (thrMsg g.reqmods msg (k + 1), List.range (k + 1), some (FifoErr.single e)))
  ∧ (∀ (msg : Msg),
        (∀ i, thrErr g.reqmods msg i = none) →
        g.modifyRequest msg
          = (thrMsg g.reqmods msg g.reqmods.length, List.range g.reqmods.length, none))
  ∧ (∀ (msg : Msg) (k : Nat) (e : η),
        thrErr g.resmods msg k = some e →
        (∀ i, i < k → thrErr g.resmods msg i = none) →
        g.modifyResponse msg
          = (thrMsg g.resmods msg (k + 1), List.range (k + 1), some (FifoErr.single e)))
  ∧ (∀ (msg : Msg),
        (∀ i, thrErr g.resmods msg i = none) →
        g.modifyResponse msg
          = (thrMsg g.resmods msg g.resmods.length, List.range g.resmods.length, none)) := by
  refine ⟨?_, ?_, ?_, ?_⟩
  · intro msg k e he hfirst
    rw [FifoGroup.modifyRequest, hagg, List.range_eq_range']
    exact fifoRun_false_firstErr g.reqmods msg 0 k e he hfirst
  · intro msg hnone
    rw [FifoGroup.modifyRequest, hagg, List.range_eq_range']
    exact fifoRun_false_noErr g.reqmods msg 0 hnone
  · intro msg k e he hfirst
    rw [FifoGroup.modifyResponse, hagg, List.range_eq_range']
    exact fifoRun_false_firstErr g.resmods msg 0 k e he hfirst
  · intro msg hnone
    rw [FifoGroup.modifyResponse, hagg, List.range_eq_range']
    exact fifoRun_false_noErr g.resmods msg 0 hnone

/-- Witness for claim C1: on the concrete group G1 (aggregation disabled),
entry 1 is the first to error; the run executes entries 0 and 1 only and
returns entry 1's error 7 unchanged. -/
theorem claim_c1_witness :
    FifoGroup.modifyRequest G1 0 = (11, [0, 1], some (FifoErr.single 7)) := by
  have h := (claim_c1 G1 rfl).1 0 1 7 (by decide)
    (fun i hi => by
      have hz : i = 0 := Nat.lt_one_iff.mp hi
      subst hz
      decide)
  exact h.trans (by decide)

/-- Claim C2: for every modifier group with aggregate-errors = true, every
entry executes in insertion order regardless of prior errors, and the group
returns success when no entry errored, otherwise the multi-error container
holding every entry's error in insertion order. -/
theorem claim_c2 {Msg η : Type} (g : FifoGroup Msg η)
    (hagg : g.aggregateErrors = true) (msg : Msg) :
    (g.modifyRequest msg
      = (thrMsg g.reqmods msg g.reqmods.length, List.range g.reqmods.length,
         if ((List.range g.reqmods.length).filterMap (thrErr g.reqmods msg)).isEmpty
         then none
         else some (FifoErr.multi
           ((List.range g.reqmods.length).filterMap (thrErr g.reqmods msg)))))
  ∧ (g.modifyResponse msg
      = (thrMsg g.resmods msg g.resmods.length, List.range g.resmods.length,
         if ((List.range g.resmods.length).filterMap (thrErr g.resmods msg)).isEmpty
         then none
         else some (FifoErr.multi
           ((List.range g.resmods.length).filterMap (thrErr g.resmods msg))))) := by
  constructor
  · rw [FifoGroup.modifyRequest, hagg]
    rw [fifoRun_true_total g.reqmods msg 0 none, ← List.range_eq_range']
    rcases h : (List.range g.reqmods.length).filterMap (thrErr g.reqmods msg) with _ | ⟨a, l⟩
    · simp [joinAcc]
    · simp [joinAcc]
  · rw [FifoGroup.modifyResponse, hagg]
    rw [fifoRun_true_total g.resmods msg 0 none, ← List.range_eq_range']
    rcases h : (List.range g.resmods.length).filterMap (thrErr g.resmods msg) with _ | ⟨a, l⟩
    · simp [joinAcc]
    · simp [joinAcc]

/-- Witness for claim C2: on the concrete group G2 (aggregation enabled) all
three entries execute and the returned container holds the two errors in
insertion order. -/
theorem claim_c2_witness :
    FifoGroup.modifyRequest G2 0 = (7, [0, 1, 2], some (FifoErr.multi [3, 8])) := by
  have h := (claim_c2 G2 rfl 0).1
  exact h.trans (by decide)

/-! ## Step lemmas for the nested-group semantics -/

theorem entryRun_prim {Msg η : Type} (side : Bool) (f : Msg → Msg × Option η) (msg : Msg) :
    entryRun side (Entry.prim f) msg = ((f msg).1, (f msg).2.map .base) := by
  simp [entryRun]

theorem entryRun_group {Msg η : Type} (side agg : Bool)
    (reqs ress : List (Entry Msg η)) (msg : Msg) :
    entryRun side (Entry.group agg reqs ress) msg
      = listRun side agg (pick side reqs ress) msg none := by
  simp [entryRun]

theorem ientryRun_prim {Msg η : Type} (side : Bool) (f : Msg → Msg × Option η) (msg : Msg) :
    ientryRun side (IEntry.prim f) msg = ((f msg).1, (f msg).2.map .base) := by
  simp [ientryRun]

theorem ientryRun_igroup {Msg η : Type} (side agg : Bool)
    (reqs ress : List (IEntry Msg η)) (msg : Msg) :
    ientryRun side (IEntry.igroup agg reqs ress) msg
      = ilistRun side agg (pick side reqs ress) msg none := by
  simp [ientryRun]

theorem listRun_nil {Msg η : Type} (side agg : Bool) (msg : Msg)
    (merr : Option (List (GoErr η))) :
    listRun side agg [] msg merr = (msg, mfinish merr) := by
  simp [listRun]

theorem listRun_cons_none {Msg η : Type} {side : Bool} {e : Entry Msg η} {msg m : Msg}
    (agg : Bool) (rest : List (Entry Msg η)) (merr : Option (List (GoErr η)))
    (h : entryRun side e msg = (m, none)) :
    listRun side agg (e :: rest) msg merr = listRun side agg rest m merr := by
  conv_lhs => rw [listRun.eq_def]
  simp [h]

theorem listRun_cons_err_false {Msg η : Type} {side : Bool} {e : Entry Msg η} {msg m : Msg}
    {er : GoErr η} (rest : List (Entry Msg η)) (merr : Option (List (GoErr η)))
    (h : entryRun side e msg = (m, some er)) :
    listRun side false (e :: rest) msg merr = (m, some er) := by
  conv_lhs => rw [listRun.eq_def]
  simp [h]

theorem listRun_cons_err_true {Msg η : Type} {side : Bool} {e : Entry Msg η} {msg m : Msg}
    {er : GoErr η} (rest : List (Entry Msg η)) (merr : Option (List (GoErr η)))
    (h : entryRun side e msg = (m, some er)) :
    listRun side true (e :: rest) msg merr
      = listRun side true rest m (some (merr.getD [] ++ [er])) := by
  conv_lhs => rw [listRun.eq_def]
  simp [h]

theorem ilistRun_nil {Msg η : Type} (side agg : Bool) (msg : Msg)
    (merr : Option (List (GoErr η))) :
    ilistRun side agg [] msg merr = (msg, mfinish merr) := by
  simp [ilistRun]

theorem ilistRun_cons_none {Msg η : Type} {side : Bool} {e : IEntry Msg η} {msg m : Msg}
    (agg : Bool) (rest : List (IEntry Msg η)) (merr : Option (List (GoErr η)))
    (h : ientryRun side e msg = (m, none)) :
    ilistRun side agg (e :: rest) msg merr = ilistRun side agg rest m merr := by
  conv_lhs => rw [ilistRun.eq_def]
  simp [h]

theorem ilistRun_cons_err_false {Msg η : Type} {side : Bool} {e : IEntry Msg η} {msg m : Msg}
    {er : GoErr η} (rest : List (IEntry Msg η)) (merr : Option (List (GoErr η)))
    (h : ientryRun side e msg = (m, some er)) :
    ilistRun side false (e :: rest) msg merr = (m, some er) := by
  conv_lhs => rw [ilistRun.eq_def]
  simp [h]

theorem ilistRun_cons_err_true {Msg η : Type} {side : Bool} {e : IEntry Msg η} {msg m : Msg}
    {er : GoErr η} (rest : List (IEntry Msg η)) (merr : Option (List (GoErr η)))
    (h : ientryRun side e msg = (m, some er)) :
    ilistRun side true (e :: rest) msg merr
      = ilistRun side true rest m (some (merr.getD [] ++ [er])) := by
  conv_lhs => rw [ilistRun.eq_def]
  simp [h]

theorem convList_nil {Msg η : Type} (side agg : Bool) :
    convList side agg ([] : List (Entry Msg η)) = [] := by
  simp [convList]

theorem convList_prim {Msg η : Type} (side agg : Bool) (f : Msg → Msg × Option η)
    (rest : List (Entry Msg η)) :
    convList side agg (Entry.prim f :: rest) = .prim f :: convList side agg rest := by
  conv_lhs => rw [convList.eq_def]

theorem convList_group {Msg η : Type} (side agg cagg : Bool)
    (creq cres rest : List (Entry Msg η)) :
    convList side agg (Entry.group cagg creq cres :: rest)
      = if agg == cagg then
          convList side cagg (pick side creq cres) ++ convList side agg rest
        else
          IEntry.igroup cagg (convList true cagg creq) (convList false cagg cres)
            :: convList side agg rest := by
  conv_lhs => rw [convList.eq_def]

theorem pick_conv {Msg η : Type} (side a : Bool) (r s : List (Entry Msg η)) :
    pick side (convList true a r) (convList false a s) = convList side a (pick side r s) := by
  cases side <;> rfl

/-! ## Supporting lemmas for the flattening equivalence -/

theorem flatten_base {η : Type} (e : η) : (GoErr.base e).flatten = [e] := by
  simp [GoErr.flatten]

theorem flatten_multi {η : Type} (es : List (GoErr η)) :
    (GoErr.multi es).flatten = flattenL es := by
  simp [GoErr.flatten]

theorem flattenL_nil {η : Type} : flattenL ([] : List (GoErr η)) = [] := by
  simp [flattenL]

theorem flattenL_cons {η : Type} (e : GoErr η) (rest : List (GoErr η)) :
    flattenL (e :: rest) = e.flatten ++ flattenL rest := by
  conv_lhs => rw [flattenL.eq_def]

theorem flattenL_append {η : Type} (a b : List (GoErr η)) :
    flattenL (a ++ b) = flattenL a ++ flattenL b := by
  induction a with
  | nil => simp [flattenL_nil]
  | cons e r ih => simp [flattenL_cons, ih, List.append_assoc]

theorem joinAcc_nil {α : Type} (acc : Option (List α)) : joinAcc acc [] = acc := by
  rcases acc <;> simp [joinAcc]

theorem joinAcc_push {α : Type} (acc : Option (List α)) (x : α) (es : List α) :
    joinAcc (some (acc.getD [] ++ [x])) es = joinAcc acc (x :: es) := by
  rcases acc <;> simp [joinAcc, List.append_assoc]

theorem mfinish_joinAcc_none {η : Type} (es : List (GoErr η)) :
    mfinish (joinAcc none es) = if es.isEmpty then none else some (GoErr.multi es) := by
  cases es <;> simp [mfinish, joinAcc]

theorem mfinish_joinAcc_none_eq_none {η : Type} (es : List (GoErr η)) :
    mfinish (joinAcc none es) = none ↔ es = [] := by
  cases es <;> simp [mfinish, joinAcc]

theorem obsEquiv_none {Msg η : Type} {x : Msg × Option (GoErr η)} {m : Msg}
    (h : obsEquiv x (m, none)) : x = (m, none) := by
  rcases x with ⟨a, b⟩
  rcases h with ⟨h1, h2⟩
  simp at h1 h2
  cases b with
  | none => simp [h1]
  | some bb => simp at h2

theorem obsEquiv_some {Msg η : Type} {x : Msg × Option (GoErr η)} {m : Msg} {er : GoErr η}
    (h : obsEquiv x (m, some er)) :
    ∃ erI, x = (m, some erI) ∧ erI.flatten = er.flatten := by
  rcases x with ⟨a, b⟩
  rcases h with ⟨h1, h2⟩
  simp at h1 h2
  cases b with
  | none => simp at h2
  | some bb =>
    simp at h2
    exact ⟨bb, by simp [h1], h2⟩

/-- Aggregating runs reduce to the threaded view: aggregateErrors = true runs
every entry, threads the message, and finishes with the accumulated errors. -/
theorem listRun_true_thread {Msg η : Type} (side : Bool) :
    ∀ (l : List (Entry Msg η)) (msg : Msg) (merr : Option (List (GoErr η))),
      listRun side true l msg merr
        = ((threadRun side l msg).1,
           mfinish (joinAcc merr (threadRun side l msg).2)) := by
  intro l
  induction l with
  | nil =>
    intro msg merr
    simp [listRun_nil, threadRun, joinAcc_nil]
  | cons e rest ih =>
    intro msg merr
    rcases h : entryRun side e msg with ⟨m, er⟩
    rcases er with _ | er
    · rw [listRun_cons_none true rest merr h, ih]
      simp [threadRun, h]
    · rw [listRun_cons_err_true rest merr h, ih]
      simp [threadRun, h, joinAcc_push]

/-- Aggregating runs over ImmutableGroup entries reduce to the threaded view. -/
theorem ilistRun_true_thread {Msg η : Type} (side : Bool) :
    ∀ (l : List (IEntry Msg η)) (msg : Msg) (merr : Option (List (GoErr η))),
      ilistRun side true l msg merr
        = ((ithreadRun side l msg).1,
           mfinish (joinAcc merr (ithreadRun side l msg).2)) := by
  intro l
  induction l with
  | nil =>
    intro msg merr
    simp [ilistRun_nil, ithreadRun, joinAcc_nil]
  | cons e rest ih =>
    intro msg merr
    rcases h : ientryRun side e msg with ⟨m, er⟩
    rcases er with _ | er
    · rw [ilistRun_cons_none true rest merr h, ih]
      simp [ithreadRun, h]
    · rw [ilistRun_cons_err_true rest merr h, ih]
      simp [ithreadRun, h, joinAcc_push]

/-- Non-aggregating runs over an appended list: if the first part succeeds the
second part continues from its final message. -/
theorem ilistRun_false_append_ok {Msg η : Type} {side : Bool} :
    ∀ {l1 : List (IEntry Msg η)} {msg m : Msg} (l2 : List (IEntry Msg η)),
      ilistRun side false l1 msg none = (m, none) →
      ilistRun side false (l1 ++ l2) msg none = ilistRun side false l2 m none := by
  intro l1
  induction l1 with
  | nil =>
    intro msg m l2 h
    rw [ilistRun_nil] at h
    simp [mfinish] at h
    subst h
    simp
  | cons e rest ih =>
    intro msg m l2 h
    rcases he : ientryRun side e msg with ⟨m2, er2⟩
    rcases er2 with _ | er2
    · rw [ilistRun_cons_none false rest none he] at h
      rw [List.cons_append, ilistRun_cons_none false (rest ++ l2) none he]
      exact ih l2 h
    · rw [ilistRun_cons_err_false rest none he] at h
      simp at h

/-- Non-aggregating runs over an appended list: if the first part errors the
run stops with that error. -/
theorem ilistRun_false_append_err {Msg η : Type} {side : Bool} :
    ∀ {l1 : List (IEntry Msg η)} {msg m : Msg} {er : GoErr η} (l2 : List (IEntry Msg η)),
      ilistRun side false l1 msg none = (m, some er) →
      ilistRun side false (l1 ++ l2) msg none = (m, some er) := by
  intro l1
  induction l1 with
  | nil =>
    intro msg m er l2 h
    rw [ilistRun_nil] at h
    simp [mfinish] at h
  | cons e rest ih =>
    intro msg m er l2 h
    rcases he : ientryRun side e msg with ⟨m2, er2⟩
    rcases er2 with _ | er2
    · rw [ilistRun_cons_none false rest none he] at h
      rw [List.cons_append, ilistRun_cons_none false (rest ++ l2) none he]
      exact ih l2 h
    · rw [ilistRun_cons_err_false rest none he] at h
      rw [List.cons_append, ilistRun_cons_err_false (rest ++ l2) none he]
      exact h

/-- Threaded view of an appended list. -/
theorem ithread_append {Msg η : Type} (side : Bool) :
    ∀ (l1 l2 : List (IEntry Msg η)) (msg : Msg),
      ithreadRun side (l1 ++ l2) msg
        = ((ithreadRun side l2 (ithreadRun side l1 msg).1).1,
           (ithreadRun side l1 msg).2
             ++ (ithreadRun side l2 (ithreadRun side l1 msg).1).2) := by
  intro l1
  induction l1 with
  | nil => intro l2 msg; simp [ithreadRun]
  | cons e rest ih =>
    intro l2 msg
    simp [ithreadRun, ih, List.append_assoc]

theorem mfinish_toList_flattenL {η : Type} (es : List (GoErr η)) :
    flattenL (mfinish (joinAcc none es)).toList = flattenL es := by
  cases es <;> simp [mfinish, joinAcc, flattenL_nil, flattenL_cons, flatten_multi]

theorem mfinish_toList_nil_iff {η : Type} (es : List (GoErr η)) :
    (mfinish (joinAcc none es)).toList = [] ↔ es = [] := by
  cases es <;> simp [mfinish, joinAcc]

theorem mapFlatten_mfinish {η : Type} {es esI : List (GoErr η)}
    (h2 : flattenL esI = flattenL es) (h3 : esI = [] ↔ es = []) :
    (mfinish (joinAcc none esI)).map GoErr.flatten
      = (mfinish (joinAcc none es)).map GoErr.flatten := by
  by_cases he : es = []
  · have heI : esI = [] := h3.mpr he
    rw [he, heI]
  · have heI : ¬esI = [] := fun h => he (h3.mp h)
    rw [mfinish_joinAcc_none, mfinish_joinAcc_none,
      if_neg (by simpa using heI), if_neg (by simpa using he)]
    simp [flatten_multi, h2]

/-- Main equivalence, by strong induction on the size of the entry list:
the ToImmutable conversion of an entry list preserves the observable
behaviour of non-aggregating runs (QF) and of the threaded view of
aggregating runs (QT), on both sides. -/
theorem qBothAux {Msg η : Type} :
    ∀ (n : Nat) (l : List (Entry Msg η)), sizeOf l ≤ n → QF l ∧ QT l := by
  intro n
  induction n with
  | zero =>
    intro l hl
    exfalso
    cases l <;> simp at hl
  | succ n ih =>
    intro l hl
    match l with
    | [] =>
      constructor
      · intro side msg
        rw [convList_nil]
        simp [ilistRun_nil, listRun_nil, obsEquiv, mfinish]
      · intro side msg
        rw [convList_nil]
        simp [ithreadRun, threadRun]
    | .prim f :: rest =>
      have hrest : sizeOf rest ≤ n := by
        simp at hl
        omega
      obtain ⟨ihF, ihT⟩ := ih rest hrest
      constructor
      · intro side msg
        rw [convList_prim]
        rcases hf : f msg with ⟨m, e⟩
        rcases e with _ | a
        · have hep : entryRun side (Entry.prim f) msg = (m, none) := by
            rw [entryRun_prim, hf]
            rfl
          have hip : ientryRun side (IEntry.prim f) msg = (m, none) := by
            rw [ientryRun_prim, hf]
            rfl
          rw [listRun_cons_none false rest none hep,
            ilistRun_cons_none false (convList side false rest) none hip]
          exact ihF side m
        · have hep : entryRun side (Entry.prim f) msg = (m, some (.base a)) := by
            rw [entryRun_prim, hf]
            rfl
          have hip : ientryRun side (IEntry.prim f) msg = (m, some (.base a)) := by
            rw [ientryRun_prim, hf]
            rfl
          rw [listRun_cons_err_false rest none hep,
            ilistRun_cons_err_false (convList side false rest) none hip]
          exact ⟨rfl, rfl⟩
      · intro side msg
        rw [convList_prim]
        rcases hf : f msg with ⟨m, e⟩
        obtain ⟨h1, h2, h3⟩ := ihT side m
        rcases e with _ | a
        · have hep : entryRun side (Entry.prim f) msg = (m, none) := by
            rw [entryRun_prim, hf]
            rfl
          have hip : ientryRun side (IEntry.prim f) msg = (m, none) := by
            rw [ientryRun_prim, hf]
            rfl
          refine ⟨?_, ?_, ?_⟩
          · simp [threadRun, ithreadRun, hep, hip, h1]
          · simp [threadRun, ithreadRun, hep, hip, h2]
          · simp [threadRun, ithreadRun, hep, hip, h3]
        · have hep : entryRun side (Entry.prim f) msg = (m, some (.base a)) := by
            rw [entryRun_prim, hf]
            rfl
          have hip : ientryRun side (IEntry.prim f) msg = (m, some (.base a)) := by
            rw [ientryRun_prim, hf]
            rfl
          refine ⟨?_, ?_, ?_⟩
          · simp [threadRun, ithreadRun, hep, hip, h1]
          · simp [threadRun, ithreadRun, hep, hip, flattenL_cons, flatten_base, h2]
          · simp [threadRun, ithreadRun, hep, hip]
    | .group cagg creq cres :: rest =>
      have hrest : sizeOf rest ≤ n := by
        simp at hl
        omega
      have hcreq : sizeOf creq ≤ n := by
        simp at hl
        omega
      have hcres : sizeOf cres ≤ n := by
        simp at hl
        omega
      obtain ⟨ihFr, ihTr⟩ := ih rest hrest
      have ihPick : ∀ side2 : Bool, QF (pick side2 creq cres) ∧ QT (pick side2 creq cres) := by
        intro side2
        cases side2
        · exact ih cres hcres
        · exact ih creq hcreq
      constructor
      · -- parent aggregateErrors = false
        intro side msg
        rw [convList_group]
        rcases cagg with _ | _
        · -- child flag false: inlined
          have hcond : (false == false) = true := rfl
          rw [if_pos hcond]
          have hchild := (ihPick side).1 side msg
          rcases hcr : listRun side false (pick side creq cres) msg none with ⟨m, er⟩
          rw [hcr] at hchild
          have hent : entryRun side (Entry.group false creq cres) msg = (m, er) := by
            rw [entryRun_group]
            exact hcr
          rcases er with _ | er
          · have hI := obsEquiv_none hchild
            rw [ilistRun_false_append_ok (convList side false rest) hI,
              listRun_cons_none false rest none hent]
            exact ihFr side m
          · obtain ⟨erI, hIeq, hIfl⟩ := obsEquiv_some hchild
            rw [ilistRun_false_append_err (convList side false rest) hIeq,
              listRun_cons_err_false rest none hent]
            exact ⟨rfl, by simp [hIfl]⟩
        · -- child flag true: kept nested
          rw [if_neg (by decide)]
          have hpc : pick side (convList true true creq) (convList false true cres)
              = convList side true (pick side creq cres) := pick_conv side true creq cres
          obtain ⟨t1, t2, t3⟩ := (ihPick side).2 side msg
          have hhead : ientryRun side
              (IEntry.igroup true (convList true true creq) (convList false true cres)) msg
              = ((ithreadRun side (convList side true (pick side creq cres)) msg).1,
                 mfinish (joinAcc none
                   (ithreadRun side (convList side true (pick side creq cres)) msg).2)) := by
            rw [ientryRun_igroup, hpc, ilistRun_true_thread]
          have hheadM : entryRun side (Entry.group true creq cres) msg
              = ((threadRun side (pick side creq cres) msg).1,
                 mfinish (joinAcc none (threadRun side (pick side creq cres) msg).2)) := by
            rw [entryRun_group, listRun_true_thread]
          by_cases hemp : (threadRun side (pick side creq cres) msg).2 = []
          · have hempI : (ithreadRun side (convList side true (pick side creq cres)) msg).2 = [] :=
              t3.mpr hemp
            have hh1 : ientryRun side
                (IEntry.igroup true (convList true true creq) (convList false true cres)) msg
                = ((ithreadRun side (convList side true (pick side creq cres)) msg).1, none) := by
              rw [hhead, hempI]
              simp [mfinish, joinAcc]
            have hh2 : entryRun side (Entry.group true creq cres) msg
                = ((threadRun side (pick side creq cres) msg).1, none) := by
              rw [hheadM, hemp]
              simp [mfinish, joinAcc]
            rw [ilistRun_cons_none false (convList side false rest) none hh1,
              listRun_cons_none false rest none hh2, t1]
            exact ihFr side _
          · have hempI :
                ¬(ithreadRun side (convList side true (pick side creq cres)) msg).2 = [] :=
              fun h => hemp (t3.mp h)
            have hh1 : ientryRun side
                (IEntry.igroup true (convList true true creq) (convList false true cres)) msg
                = ((ithreadRun side (convList side true (pick side creq cres)) msg).1,
                   some (GoErr.multi
                     (ithreadRun side (convList side true (pick side creq cres)) msg).2)) := by
              rw [hhead, mfinish_joinAcc_none, if_neg (by simpa using hempI)]
            have hh2 : entryRun side (Entry.group true creq cres) msg
                = ((threadRun side (pick side creq cres) msg).1,
                   some (GoErr.multi (threadRun side (pick side creq cres) msg).2)) := by
              rw [hheadM, mfinish_joinAcc_none, if_neg (by simpa using hemp)]
            rw [ilistRun_cons_err_false (convList side false rest) none hh1,
              listRun_cons_err_false rest none hh2]
            exact ⟨t1, by simp [flatten_multi, t2]⟩
      · -- parent aggregateErrors = true
        intro side msg
        rw [convList_group]
        rcases cagg with _ | _
        · -- child flag false: kept nested
          rw [if_neg (by decide)]
          have hpc : pick side (convList true false creq) (convList false false cres)
              = convList side false (pick side creq cres) := pick_conv side false creq cres
          have hchild := (ihPick side).1 side msg
          rcases hcr : listRun side false (pick side creq cres) msg none with ⟨m, er⟩
          rw [hcr] at hchild
          have hheadM : entryRun side (Entry.group false creq cres) msg = (m, er) := by
            rw [entryRun_group]
            exact hcr
          rcases er with _ | er
          · have hI := obsEquiv_none hchild
            have hh1 : ientryRun side
                (IEntry.igroup false (convList true false creq) (convList false false cres)) msg
                = (m, none) := by
              rw [ientryRun_igroup, hpc]
              exact hI
            obtain ⟨h1, h2, h3⟩ := ihTr side m
            refine ⟨?_, ?_, ?_⟩
            · simp [threadRun, ithreadRun, hh1, hheadM, h1]
            · simp [threadRun, ithreadRun, hh1, hheadM, h2]
            · simp [threadRun, ithreadRun, hh1, hheadM, h3]
          · obtain ⟨erI, hIeq, hIfl⟩ := obsEquiv_some hchild
            have hh1 : ientryRun side
                (IEntry.igroup false (convList true false creq) (convList false false cres)) msg
                = (m, some erI) := by
              rw [ientryRun_igroup, hpc]
              exact hIeq
            obtain ⟨h1, h2, h3⟩ := ihTr side m
            refine ⟨?_, ?_, ?_⟩
            · simp [threadRun, ithreadRun, hh1, hheadM, h1]
            · simp [threadRun, ithreadRun, hh1, hheadM, flattenL_cons, hIfl, h2]
            · simp [threadRun, ithreadRun, hh1, hheadM]
        · -- child flag true: inlined
          have hcond : (true == true) = true := rfl
          rw [if_pos hcond]
          have hheadM : entryRun side (Entry.group true creq cres) msg
              = ((threadRun side (pick side creq cres) msg).1,
                 mfinish (joinAcc none (threadRun side (pick side creq cres) msg).2)) := by
            rw [entryRun_group, listRun_true_thread]
          obtain ⟨t1, t2, t3⟩ := (ihPick side).2 side msg
          obtain ⟨r1, r2, r3⟩ := ihTr side ((threadRun side (pick side creq cres) msg).1)
          have hthread : threadRun side (Entry.group true creq cres :: rest) msg
              = ((threadRun side rest (threadRun side (pick side creq cres) msg).1).1,
                 (mfinish (joinAcc none (threadRun side (pick side creq cres) msg).2)).toList
                   ++ (threadRun side rest
                        (threadRun side (pick side creq cres) msg).1).2) := by
            simp [threadRun, hheadM]
          refine ⟨?_, ?_, ?_⟩
          · rw [ithread_append, hthread, t1]
            exact r1
          · rw [ithread_append, hthread]
            simp only [flattenL_append, mfinish_toList_flattenL, t1, t2]
            rw [r2]
          · rw [ithread_append, hthread, t1]
            simp only [List.append_eq_nil, mfinish_toList_nil_iff]
            exact and_congr t3 r3

/-- Claim C3: for every mutable Group g (possibly with nested Groups as
entries), ToImmutable inlines a nested group's entry sequence into the
parent's sequence iff the nested group's aggregateErrors flag equals the
parent's, and the resulting ImmutableGroup's ModifyRequest and ModifyResponse
have the same observable behaviour as g's: the message is modified
identically and the error outcome is equivalent (success iff success, and on
error the same leaf errors in the same rendering order). -/
theorem claim_c3 {Msg η : Type} (g : MGroup Msg η) :
    (∀ (side cagg : Bool) (creq cres rest : List (Entry Msg η)),
        convList side g.aggregateErrors (Entry.group cagg creq cres :: rest)
          = if g.aggregateErrors == cagg then
              convList side cagg (pick side creq cres)
                ++ convList side g.aggregateErrors rest
            else
              IEntry.igroup cagg (convList true cagg creq) (convList false cagg cres)
                :: convList side g.aggregateErrors rest)
  ∧ (∀ msg : Msg,
      (g.toImmutable.modifyRequest msg).1 = (g.modifyRequest msg).1
      ∧ ((g.toImmutable.modifyRequest msg).2).map GoErr.flatten
          = ((g.modifyRequest msg).2).map GoErr.flatten
      ∧ (g.toImmutable.modifyResponse msg).1 = (g.modifyResponse msg).1
      ∧ ((g.toImmutable.modifyResponse msg).2).map GoErr.flatten
          = ((g.modifyResponse msg).2).map GoErr.flatten) := by
  constructor
  · intro side cagg creq cres rest
    exact convList_group side g.aggregateErrors cagg creq cres rest
  · intro msg
    rcases hagg : g.aggregateErrors with _ | _
    · have hF1 := (qBothAux (sizeOf g.reqmods) g.reqmods le_rfl).1 true msg
      have hF2 := (qBothAux (sizeOf g.resmods) g.resmods le_rfl).1 false msg
      obtain ⟨ha1, ha2⟩ := hF1
      obtain ⟨hb1, hb2⟩ := hF2
      simp only [MGroup.modifyRequest, MGroup.modifyResponse, IGroup.modifyRequest,
        IGroup.modifyResponse, MGroup.toImmutable, hagg]
      exact ⟨ha1, ha2, hb1, hb2⟩
    · have hT1 := (qBothAux (sizeOf g.reqmods) g.reqmods le_rfl).2 true msg
      have hT2 := (qBothAux (sizeOf g.resmods) g.resmods le_rfl).2 false msg
      obtain ⟨ha1, ha2, ha3⟩ := hT1
      obtain ⟨hb1, hb2, hb3⟩ := hT2
      simp only [MGroup.modifyRequest, MGroup.modifyResponse, IGroup.modifyRequest,
        IGroup.modifyResponse, MGroup.toImmutable, hagg]
      rw [listRun_true_thread, listRun_true_thread, ilistRun_true_thread,
        ilistRun_true_thread]
      exact ⟨ha1, mapFlatten_mfinish ha2 ha3, hb1, mapFlatten_mfinish hb2 hb3⟩

/-! ## Handler loop theorems (claim C4) -/

/-- The loop never loses track of calls already made. -/
theorem handleLoopGo_calls_ge {η : Type} (clsbl : η → Bool) :
    ∀ (script : List (HandleOutcome η)) (errCount calls : Nat),
      calls ≤ (handleLoopGo clsbl script errCount calls).handleCalls := by
  intro script
  induction script with
  | nil => intro errCount calls; simp [handleLoopGo]
  | cons o rest ih =>
    intro errCount calls
    rcases ho : o.err with _ | e
    · by_cases hh : o.hijacked
      · simp [handleLoopGo, ho, hh]
      · have := ih 0 (calls + 1)
        simp [handleLoopGo, ho, hh]
        omega
    · by_cases hcl : clsbl e
      · simp [handleLoopGo, ho, hcl]
      · by_cases hec : errCount + 1 >= 5
        · simp [handleLoopGo, ho, hcl, hec]
        · by_cases hh : o.hijacked
          · simp [handleLoopGo, ho, hcl, hec, hh]
          · have := ih (errCount + 1) (calls + 1)
            simp [handleLoopGo, ho, hcl, hec, hh]
            omega

/-- Once the loop exits, the socket was closed and only the consumed prefix
of the script matters: outcomes after the exit point are never used. -/
theorem handleLoopGo_stops {η : Type} (clsbl : η → Bool) :
    ∀ (script : List (HandleOutcome η)) (errCount calls : Nat) (ex : LoopExit),
      (handleLoopGo clsbl script errCount calls).exit = some ex →
      (handleLoopGo clsbl script errCount calls).connClosed = true
      ∧ ∀ extra, handleLoopGo clsbl
          (script.take ((handleLoopGo clsbl script errCount calls).handleCalls - calls)
            ++ extra) errCount calls
        = handleLoopGo clsbl script errCount calls := by
  intro script
  induction script with
  | nil =>
    intro errCount calls ex h
    simp [handleLoopGo] at h
  | cons o rest ih =>
    intro errCount calls ex h
    rcases ho : o.err with _ | e
    · by_cases hh : o.hijacked
      · refine ⟨by simp [handleLoopGo, ho, hh], ?_⟩
        intro extra
        simp [handleLoopGo, ho, hh, Nat.add_sub_cancel_left, List.take_succ_cons]
      · have hstep : handleLoopGo clsbl (o :: rest) errCount calls
            = handleLoopGo clsbl rest 0 (calls + 1) := by
          simp [handleLoopGo, ho, hh]
        rw [hstep] at h
        obtain ⟨hc1, hc2⟩ := ih 0 (calls + 1) ex h
        have hge : calls + 1 ≤ (handleLoopGo clsbl rest 0 (calls + 1)).handleCalls :=
          handleLoopGo_calls_ge clsbl rest 0 (calls + 1)
        refine ⟨by rw [hstep]; exact hc1, ?_⟩
        intro extra
        rw [hstep]
        have htake : (o :: rest).take
              ((handleLoopGo clsbl rest 0 (calls + 1)).handleCalls - calls)
            = o :: rest.take
                ((handleLoopGo clsbl rest 0 (calls + 1)).handleCalls - (calls + 1)) := by
          have hm : (handleLoopGo clsbl rest 0 (calls + 1)).handleCalls - calls
              = ((handleLoopGo clsbl rest 0 (calls + 1)).handleCalls - (calls + 1)) + 1 := by
            omega
          rw [hm, List.take_succ_cons]
        rw [htake, List.cons_append]
        have hstep2 : handleLoopGo clsbl
            (o :: (rest.take ((handleLoopGo clsbl rest 0 (calls + 1)).handleCalls
                - (calls + 1)) ++ extra)) errCount calls
            = handleLoopGo clsbl
                (rest.take ((handleLoopGo clsbl rest 0 (calls + 1)).handleCalls
                  - (calls + 1)) ++ extra) 0 (calls + 1) := by
          simp [handleLoopGo, ho, hh]
        rw [hstep2]
        exact hc2 extra
    · by_cases hcl : clsbl e
      · refine ⟨by simp [handleLoopGo, ho, hcl], ?_⟩
        intro extra
        simp [handleLoopGo, ho, hcl, Nat.add_sub_cancel_left, List.take_succ_cons]
      · by_cases hec : errCount + 1 >= 5
        · refine ⟨by simp [handleLoopGo, ho, hcl, hec], ?_⟩
          intro extra
          simp [handleLoopGo, ho, hcl, hec, Nat.add_sub_cancel_left, List.take_succ_cons]
        · by_cases hh : o.hijacked
          · refine ⟨by simp [handleLoopGo, ho, hcl, hec, hh], ?_⟩
            intro extra
            simp [handleLoopGo, ho, hcl, hec, hh, Nat.add_sub_cancel_left,
              List.take_succ_cons]
          · have hstep : handleLoopGo clsbl (o :: rest) errCount calls
                = handleLoopGo clsbl rest (errCount + 1) (calls + 1) := by
              simp [handleLoopGo, ho, hcl, hec, hh]
            rw [hstep] at h
            obtain ⟨hc1, hc2⟩ := ih (errCount + 1) (calls + 1) ex h
            have hge : calls + 1
                ≤ (handleLoopGo clsbl rest (errCount + 1) (calls + 1)).handleCalls :=
              handleLoopGo_calls_ge clsbl rest (errCount + 1) (calls + 1)
            refine ⟨by rw [hstep]; exact hc1, ?_⟩
            intro extra
            rw [hstep]
            have htake : (o :: rest).take
                  ((handleLoopGo clsbl rest (errCount + 1) (calls + 1)).handleCalls - calls)
                = o :: rest.take
                    ((handleLoopGo clsbl rest (errCount + 1) (calls + 1)).handleCalls
                      - (calls + 1)) := by
              have hm : (handleLoopGo clsbl rest (errCount + 1) (calls + 1)).handleCalls
                    - calls
                  = ((handleLoopGo clsbl rest (errCount + 1) (calls + 1)).handleCalls
                      - (calls + 1)) + 1 := by
                omega
              rw [hm, List.take_succ_cons]
            rw [htake, List.cons_append]
            have hstep2 : handleLoopGo clsbl
                (o :: (rest.take ((handleLoopGo clsbl rest (errCount + 1)
                    (calls + 1)).handleCalls - (calls + 1)) ++ extra)) errCount calls
                = handleLoopGo clsbl
                    (rest.take ((handleLoopGo clsbl rest (errCount + 1)
                      (calls + 1)).handleCalls - (calls + 1)) ++ extra)
                    (errCount + 1) (calls + 1) := by
              simp [handleLoopGo, ho, hcl, hec, hh]
            rw [hstep2]
            exact hc2 extra

/-- Claim C4 counterexample: a handle call after which the session is
hijacked makes the loop exit through the hijack branch, yet the deferred
conn.Close() still closes the underlying socket, so the claim as stated is
false at the one-outcome script where the first handle call succeeds and
hijacks. -/
theorem claim_c4_counterexample : ¬c4AsStated := by
  intro h
  have h2 := h Unit (fun _ => false) [⟨none, true⟩] rfl
  exact absurd h2 (by decide)

/-- Claim C4 amended: when the handler loop exits because the session was
hijacked, the engine performs no further handle calls (reads or writes) on
the connection — the loop result only depends on the consumed prefix of the
interaction script — but the deferred conn.Close() does close the underlying
socket. -/
theorem claim_c4_amended {η : Type} (clsbl : η → Bool)
    (script : List (HandleOutcome η))
    (h : (handleLoop false clsbl script).exit = some LoopExit.hijacked) :
    (handleLoop false clsbl script).connClosed = true
    ∧ ∀ extra, handleLoop false clsbl
        (script.take (handleLoop false clsbl script).handleCalls ++ extra)
      = handleLoop false clsbl script := by
  have hunf : ∀ s : List (HandleOutcome η),
      handleLoop false clsbl s = handleLoopGo clsbl s 0 0 := fun s => rfl
  rw [hunf] at h
  obtain ⟨h1, h2⟩ := handleLoopGo_stops clsbl script 0 0 LoopExit.hijacked h
  constructor
  · rw [hunf]
    exact h1
  · intro extra
    simp only [hunf]
    simpa using h2 extra

/-- Witness for the amended claim C4 at a concrete script. -/
theorem claim_c4_witness :
    (handleLoop false (fun _ : Unit => false) [⟨none, true⟩]).connClosed = true
    ∧ handleLoop false (fun _ : Unit => false)
        (([⟨none, true⟩] : List (HandleOutcome Unit)).take
            (handleLoop false (fun _ : Unit => false) [⟨none, true⟩]).handleCalls
          ++ [⟨some (), false⟩])
      = handleLoop false (fun _ : Unit => false) [⟨none, true⟩] := by
  have h := claim_c4_amended (fun _ : Unit => false) [⟨none, true⟩] rfl
  exact ⟨h.1, h.2 [⟨some (), false⟩]⟩

/-! ## InstrumentedConn theorems (claims C5, C6, C7) -/

/-- Successful writes only accumulate bytesOut. -/
theorem runOkWrites_eq {η : Type} :
    ∀ (ns : List Nat) (st : ICState η),
      runOkWrites st ns = { st with bytesOut := st.bytesOut + ns.sum } := by
  intro ns
  induction ns with
  | nil => intro st; simp [runOkWrites]
  | cons n rest ih =>
    intro st
    simp [runOkWrites, icWrite, ih, Nat.add_assoc]

/-- Claim C5 (code bug): on a fresh instrumented connection the first Close
forwards the inner close once but then panics dereferencing the nil atomic
error pointer while building the stats entry, so no stats entry is emitted
and Close never returns; a second Close returns the stored close error,
again without emitting.  The spec says the first Close emits exactly one
stats entry and returns the inner result. -/
theorem claim_c5_bug :
    ((icClose icFresh none 5).1 = none)
    ∧ ((icClose icFresh none 5).2.2 = none)
    ∧ ((icClose icFresh none 5).2.1.innerCloseCalls = 1)
    ∧ ((icClose (icClose icFresh none 5).2.1 none 7).1 = some none)
    ∧ ((icClose (icClose icFresh none 5).2.1 none 7).2.2 = none)
    ∧ ((icClose (icClose icFresh none 5).2.1 none 7).2.1.innerCloseCalls = 1) :=
  ⟨rfl, rfl, rfl, rfl, rfl, rfl⟩

/-- Claim C6 (code bug): after any sequence of successful writes, bytesOut
holds exactly the sum of the written byte counts, but Close panics on the
nil atomic error pointer and emits no stats entry at all, so there is no
stats entry whose bytes-out field could equal that sum. -/
theorem claim_c6_bug (ns : List Nat) :
    (runOkWrites icFresh ns).bytesOut = ns.sum
    ∧ (icClose (runOkWrites icFresh ns) none 9).1 = none
    ∧ (icClose (runOkWrites icFresh ns) none 9).2.2 = none := by
  rw [runOkWrites_eq]
  refine ⟨?_, ?_, ?_⟩ <;> simp [icClose, icFresh, newInstrumentedConn]

/-- Claim C7 (code bug): an error-free Read delegates and adds the bytes
read, but the first Read that returns a non-nil inner error dereferences the
nil atomic error pointer and panics instead of recording the error and
returning the inner result. -/
theorem claim_c7_bug :
    icRead icFresh 7 none
      = some ((7, none), { icFresh with bytesIn := 7 })
    ∧ icRead icFresh 0 (some "EOF") = none :=
  ⟨rfl, rfl⟩

/-! ## isCloseable theorem (claim C8) -/

/-- Claim C8: the handler classifies an error as closeable iff it is a
network timeout, io.EOF, the closed-pipe error, the internal close sentinel,
or a TLS-layer failure (its message contains "tls:"). -/
theorem claim_c8 (e : NetErrValue) : isCloseable e = true ↔ closeableSpec e := by
  rcases e with ⟨ne, t, id, msg⟩
  by_cases hin : "tls:".toList <:+: msg <;>
    cases ne <;> cases t <;> cases id <;>
      simp [isCloseable, closeableSpec, hin]

/-! ## Close-decision theorems (claim C9) -/

/-- Claim C9 counterexample: for an HTTP/1.1 request with no Connection:
close on either side and the proxy not shutting down, CloseAfterReply = true
makes the engine terminate after writing but leaves res.Close = false, so
the claim as stated is false. -/
theorem claim_c9_counterexample : ¬c9AsStated := by
  intro h
  have h2 := (h ⟨1, 1, false⟩ false false true).mpr (by decide)
  exact absurd h2.1 (by decide)

/-- Claim C9 amended: with write and flush succeeding, res.Close is set to
true exactly when the request is not HTTP/1.1 or Connection: close is set on
either side or the proxy is shutting down; the engine prepares to terminate
after writing exactly when one of those holds or CloseAfterReply is set
(CloseAfterReply alone does not set res.Close). -/
theorem claim_c9_amended (req : ReqInfo) (rc0 pc car : Bool) :
    finishExchange req rc0 pc car false false false
      = (!(protoAtLeast req 1 1) || req.close || rc0 || pc,
         (!(protoAtLeast req 1 1) || req.close || rc0 || pc) || car) := by
  simp only [finishExchange]
  cases hn : (!(protoAtLeast req 1 1) || req.close || rc0 || pc)
  · simp only [Bool.or_eq_false_iff] at hn
    simp [hn.1.2]
  · simp

/-! ## roundTrip theorems (claim C10) -/

/-- Claim C10: when the per-request context has skip-round-trip set, the
round-trip step returns a synthetic 200 response with no error and never
invokes the configured RoundTripper. -/
theorem claim_c10 {ρ η : Type} (ctx : RequestContext) (h : ctx.skipRoundTrip = true)
    (rt : ρ → Except η (SynthResponse ρ)) (req : ρ) :
    proxyRoundTrip ctx rt req = (Except.ok (newResponse 200 req), false) := by
  simp [proxyRoundTrip, h]

/-- Witness for claim C10 at a concrete context, round tripper and request. -/
theorem claim_c10_witness :
    proxyRoundTrip ⟨true, false, false⟩
        (fun _ : Nat => (Except.error "upstream" : Except String (SynthResponse Nat))) 42
      = (Except.ok (newResponse 200 42), false) :=
  claim_c10 ⟨true, false, false⟩ rfl _ 42

end Martian
